import Mathlib

/-!
Shallow embedding of the rganalysis track-set aggregation and dispatch engine
(source: src/rganalysis/__init__.py, with the progress loop of the legacy
driver src/rganalysis.py).

Modelling conventions:
* A mutagen easy-tag store is modelled as an association list from tag name to
  the stored text value. A present mutagen value is a non-empty list of
  strings; every read in the program uses either the whole value (equality,
  Python truthiness) or its first element, and every write stores a single
  element, so we model the value by its text. Python truthiness of a present
  value (a non-empty list) is always true, so presence coincides with
  truthiness.
* Python dicts are modelled as association lists in insertion order where
  inserting an existing key overwrites the value in place.
* The filesystem (for sentinel marker files) is modelled as the list of
  existing paths.
* Exceptions are modelled with Except; machine floats of the progress loop
  are modelled by exact rationals (the claim itself states the formula as
  exact arithmetic).
-/

deriving instance DecidableEq for Except

/-- Association-list lookup with decidable key equality, modelling Python
dict subscripting (first entry with the key; our dicts keep keys unique). -/
def alookup {κ α : Type} [DecidableEq κ] : List (κ × α) → κ → Option α
  | [], _ => none
  | (k, v) :: rest, key => if k = key then some v else alookup rest key

/-- Keys of an association list, in order. -/
def akeys {κ α : Type} (d : List (κ × α)) : List κ :=
  d.map Prod.fst

/-- Values of an association list, in order. -/
def avalues {κ α : Type} (d : List (κ × α)) : List α :=
  d.map Prod.snd

/-- Python dict assignment `d[k] = v`: overwrite in place if the key exists,
append otherwise. -/
def aupdate {κ α : Type} [DecidableEq κ] (d : List (κ × α)) (k : κ) (v : α) :
    List (κ × α) :=
  if d.any (fun p => p.1 = k) then
    d.map (fun p => if p.1 = k then (k, v) else p)
  else
    d ++ [(k, v)]

/-- A single track: `RGTrack` wrapping a mutagen easy file
(src/rganalysis/__init__.py lines 108-203). `directory` carries the value of
`os.path.dirname(self.filename)`; `classname` is `get_full_classname` of the
underlying file object. -/
structure Track where
  filename : String
  directory : String
  classname : String
  tags : List (String × String)
deriving DecidableEq

/-- The replaygain tag keys (src lines 44-50). -/
def trackGainTag : String := "replaygain_track_gain"

def trackPeakTag : String := "replaygain_track_peak"

def albumGainTag : String := "replaygain_album_gain"

def albumPeakTag : String := "replaygain_album_peak"

/-- `get_multi(d, keys, default)`: value for the first present key
(src lines 81-93); callers take the first element of the value, which our
value model already is, with default `[''][0] = ''`. -/
def get_multi (d : List (String × String)) : List String → String
  | [] => ""
  | k :: rest =>
    match alookup d k with
    | some v => v
    | none => get_multi d rest

/-- `get_album` (src line 96). -/
def get_album (t : Track) : String :=
  get_multi t.tags ["albumsort", "album"]

/-- `get_albumartist` (src line 98). -/
def get_albumartist (t : Track) : String :=
  get_multi t.tags ["albumartistsort", "albumartist", "artistsort", "artist"]

/-- `get_albumid` (src line 100). -/
def get_albumid (t : Track) : String :=
  get_multi t.tags ["album_grouping_key", "labelid", "musicbrainz_albumid"]

/-- `get_discnumber` (src line 102). -/
def get_discnumber (t : Track) : String :=
  (alookup t.tags "discnumber").getD ""

/-- `RGTrack.track_set_key` (src lines 133-141): the 6-tuple
(directory, classname, album, albumartist, albumid, discnumber), modelled as a
list of six strings ordered lexicographically exactly as Python orders the
tuple. -/
def trackSetKey (t : Track) : List String :=
  [t.directory, t.classname, get_album t, get_albumartist t, get_albumid t,
   get_discnumber t]

/-- `RGTrack.has_valid_rgdata` (src lines 118-121): `self.gain and self.peak`;
with present mutagen values always truthy this is presence of both tags. -/
def trackHasValid (t : Track) : Bool :=
  (alookup t.tags trackGainTag).isSome && (alookup t.tags trackPeakTag).isSome

/-- An album-like track set: `RGTrackSet` (src lines 212-436). `RGTracks` is
the Python dict from filename to track. -/
structure RGTrackSet where
  RGTracks : List (String × Track)
  gain_type : String
deriving DecidableEq

/-- The dict `{ str(t.filename): t for t in tracks }` of the constructor
(src line 218): built left to right, a repeated filename overwrites. -/
def dictOfTracks (l : List Track) : List (String × Track) :=
  l.foldl (fun d t => aupdate d t.filename t) []

/-- `RGTrackSet.__init__` (src lines 217-224): fails on an empty collapsed
dict and on more than one distinct key among the surviving tracks. -/
def mkRGTrackSet (l : List Track) (gt : String) : Except String RGTrackSet :=
  if (dictOfTracks l).length < 1 then
    .error "Need at least one track to analyze"
  else if ((avalues (dictOfTracks l)).map trackSetKey).dedup.length ≠ 1 then
    .error "All tracks in an album must have the same key"
  else
    .ok ⟨dictOfTracks l, gt⟩

/-- `RGTrackSet.num_tracks` (src lines 286-289). -/
def RGTrackSet.num_tracks (s : RGTrackSet) : Nat :=
  s.RGTracks.length

/-- `RGTrackSet.track_set_key` (src lines 296-299): the key of the first
track in the dict. -/
def sKey (s : RGTrackSet) : List String :=
  match s.RGTracks with
  | [] => []
  | (_, t) :: _ => trackSetKey t

/-- `RGTrackSet.directory` (src lines 306-309): directory of the first track
in the dict. -/
def sDirectory (s : RGTrackSet) : String :=
  match s.RGTracks with
  | [] => ""
  | (_, t) :: _ => t.directory

/-- `RGTrackSet.filenames` (src lines 281-284): `sorted(self.RGTracks.keys())`. -/
def RGTrackSet.filenames (s : RGTrackSet) : List String :=
  List.insertionSort (· ≤ ·) (akeys s.RGTracks)

/-- Result of the three-valued aggregate tag read `_get_tag`:
a shared value, the disagreement sentinel (Python `False`), or the absence
sentinel (Python `None`). -/
inductive TagResult where
  | val (v : String)
  | disagree
  | absent
deriving DecidableEq

/-- `RGTrackSet._get_tag` (src lines 311-328): a `KeyError` from any track
yields `None`; otherwise the set of values decides between one shared value
and the disagreement sentinel. -/
def getTag (s : RGTrackSet) (tag : String) : TagResult :=
  let ts := avalues s.RGTracks
  if ts.any (fun t => (alookup t.tags tag).isNone) then
    .absent
  else
    match (ts.filterMap (fun t => alookup t.tags tag)).dedup with
    | [] => .absent
    | [v] => .val v
    | _ :: _ :: _ => .disagree

/-- The sentinel marker filenames `track_gain_signal_filenames` (src line 215). -/
def trackGainSignalFilenames : List String :=
  ["TRACKGAIN", ".TRACKGAIN", "_TRACKGAIN"]

/-- `os.path.join(d, f)` for a relative second component. -/
def pathJoin (d f : String) : String :=
  if d = "" then f
  else if d.endsWith "/" then d ++ f
  else d ++ "/" ++ f

/-- `RGTrackSet.is_multitrack_album` (src lines 380-391). The source tests
`len(self.RGTracks) <= 1 or self.track_set_key[0:1] is ('','')`; the second
disjunct compares a freshly allocated one-element slice by object identity
with a two-element tuple and is therefore always false (identity implies
equality, and the lengths differ); we embed it as the corresponding equality
test, which is likewise always false. -/
def isMultitrackAlbum (s : RGTrackSet) : Bool :=
  if s.RGTracks.length ≤ 1 || ((sKey s).take 1 == ["", ""]) then false
  else true

/-- The TypeError message of `want_album_gain` (src line 254). -/
def gainTypeErrorMsg : String :=
  "RGTrackSet.gain_type must be either track, album, or auto"

/-- `RGTrackSet.want_album_gain` (src lines 242-257). `env` is the list of
existing filesystem paths consulted by `os.path.exists`. -/
def wantAlbumGain (s : RGTrackSet) (env : List String) : Except String Bool :=
  if isMultitrackAlbum s then
    if s.gain_type = "album" then .ok true
    else if s.gain_type = "track" then .ok false
    else if s.gain_type = "auto" then
      .ok (!(trackGainSignalFilenames.any
        (fun f => env.contains (pathJoin (sDirectory s) f))))
    else .error gainTypeErrorMsg
  else .ok false

/-- True iff a `TagResult` is Python-truthy: a present consistent value is a
non-empty tuple, hence truthy; `False` and `None` are falsy. -/
def TagResult.truthy : TagResult → Bool
  | .val _ => true
  | .disagree => false
  | .absent => false

/-- True iff a `TagResult` `is None` in Python. -/
def TagResult.isNone : TagResult → Bool
  | .absent => true
  | _ => false

/-- `RGTrackSet.has_valid_rgdata` (src lines 393-419). The per-track loop
runs first; then, when album gain is wanted, both aggregates must be truthy
(the `elif .. is None` and final `else` both return `False`, folded into one
else branch); when not wanted, both aggregates must be `None`. -/
def hasValidRgdata (s : RGTrackSet) (env : List String) : Except String Bool :=
  if (avalues s.RGTracks).all trackHasValid then
    match wantAlbumGain s env with
    | .error e => .error e
    | .ok true =>
      if (getTag s albumGainTag).truthy && (getTag s albumPeakTag).truthy then
        .ok true
      else .ok false
    | .ok false =>
      if !(getTag s albumGainTag).isNone || !(getTag s albumPeakTag).isNone then
        .ok false
      else .ok true
  else .ok false

/-- The external `audiotools` outcome consumed by `do_gain` (src lines
363-370): whether `open_files` loaded every file, the per-file
(gain, peak) pairs produced by `calculate_replay_gain`, and the album-level
pair stored under the `None` key (absent when the generator yielded
nothing). -/
structure Analysis where
  openOk : Bool
  perFile : List (String × String × String)
  album : Option (String × String)
deriving DecidableEq

/-- `RGTrack.gain`/`RGTrack.peak` setters (src lines 173-175, 189-191):
`self.track[tag] = str(value)`. -/
def setTrackTag (t : Track) (tag v : String) : Track :=
  { t with tags := aupdate t.tags tag v }

/-- `RGTrackSet._set_tag` (src lines 330-334): set the tag on every member. -/
def setAllTags (d : List (String × Track)) (tag v : String) :
    List (String × Track) :=
  d.map (fun p => (p.1, setTrackTag p.2 tag v))

/-- The per-track write loop of `do_gain` (src lines 372-374): for each dict
entry in order, look up `rginfo[fname]` and write gain then peak; a missing
file raises `KeyError`, leaving the earlier entries written and the rest
untouched. Returns the dict, the number of tag writes performed, and the
raised exception if any. -/
def writeTrackTags (a : Analysis) :
    List (String × Track) → List (String × Track) × Nat × Option String
  | [] => ([], 0, none)
  | (fn, t) :: rest =>
    match alookup a.perFile fn with
    | none => ((fn, t) :: rest, 0, some "KeyError")
    | some (g, p) =>
      let t2 := setTrackTag (setTrackTag t trackGainTag g) trackPeakTag p
      let r := writeTrackTags a rest
      ((fn, t2) :: r.1, r.2.1 + 2, r.2.2)

/-- Outcome of one `do_gain` call: the track set as left by the call
(partially mutated when an exception escaped), the escaped exception if any,
the number of individual tag writes performed, and whether `save()` ran. -/
structure GainResult where
  state : RGTrackSet
  err : Option String
  tagWrites : Nat
  saved : Bool
deriving DecidableEq

/-- `RGTrackSet.do_gain` (src lines 344-378). Note that the `gain_type`
parameter is accepted but never read by the body: the album decision calls
`self.want_album_gain()`, which uses the stored `self.gain_type`. When album
gain is wanted, `(self.gain, self.peak) = rginfo[None]` first evaluates
`rginfo[None]` (a `KeyError` when absent), then sets the album gain tag on
every member and then the album peak tag on every member. -/
def doGain (s : RGTrackSet) (force : Bool) (gainType : Option String)
    (env : List String) (a : Analysis) : GainResult :=
  match hasValidRgdata s env with
  | .error e => ⟨s, some e, 0, false⟩
  | .ok hv =>
    if hv && !force then ⟨s, none, 0, false⟩
    else if !a.openOk then ⟨s, some "Could not load some files", 0, false⟩
    else
      match writeTrackTags a s.RGTracks with
      | (d2, n, some e) => ⟨⟨d2, s.gain_type⟩, some e, n, false⟩
      | (d2, n, none) =>
        let s2 : RGTrackSet := ⟨d2, s.gain_type⟩
        match wantAlbumGain s2 env with
        | .error e => ⟨s2, some e, n, false⟩
        | .ok false => ⟨s2, none, n, true⟩
        | .ok true =>
          match a.album with
          | none => ⟨s2, some "KeyError", n, false⟩
          | some (g, p) =>
            let d3 := setAllTags (setAllTags d2 albumGainTag g) albumPeakTag p
            ⟨⟨d3, s.gain_type⟩, none, n + 2 * d2.length, true⟩

/-- `TrackSetHandler.__call__` (src lines 533-539): run `do_gain`, catch any
exception at the dispatch boundary, and return the track set in whatever
state the call left it. -/
def trackSetHandler (force : Bool) (gainType : Option String)
    (env : List String) (a : Analysis) (s : RGTrackSet) : RGTrackSet :=
  (doGain s force gainType env a).state

/-- The dispatch of `main` over the handler: one handler application per
track set, with `ext` giving each set's external analysis outcome. -/
def dispatchRun (force : Bool) (gainType : Option String) (env : List String)
    (ext : RGTrackSet → Analysis) (sets : List RGTrackSet) :
    List RGTrackSet :=
  sets.map (fun s => trackSetHandler force gainType env (ext s) s)

/-- One step of the grouping loop of `MakeTrackSets` (src lines 235-239):
append the track to its key's entry, or create a new entry on `KeyError`. -/
def addToGroups (gs : List (List String × List Track)) (t : Track) :
    List (List String × List Track) :=
  if gs.any (fun g => g.1 = trackSetKey t) then
    gs.map (fun g =>
      if g.1 = trackSetKey t then (g.1, g.2 ++ [t]) else g)
  else
    gs ++ [(trackSetKey t, [t])]

/-- The `track_sets` dict of `MakeTrackSets` after the loop. -/
def groupsOf (l : List Track) : List (List String × List Track) :=
  l.foldl addToGroups []

/-- `RGTrackSet.MakeTrackSets` (src lines 229-240): group the tracks by key,
then construct one `RGTrackSet` per key in ascending key order; a constructor
failure propagates. -/
def MakeTrackSets (l : List Track) : Except String (List RGTrackSet) :=
  (List.insertionSort (· ≤ ·) (akeys (groupsOf l))).mapM
    (fun k => mkRGTrackSet ((alookup (groupsOf l) k).getD []) "auto")

/-- The `sorted(track_sets.keys())` of `MakeTrackSets`. -/
def sortedKeysOf (l : List Track) : List (List String) :=
  List.insertionSort (· ≤ ·) (akeys (groupsOf l))

/-- The per-completion emission loop of `main` (src/rganalysis.py lines
545-550): after each completion add the set's length to the running total
and emit `100.0 * processed_length / total_length`, modelled over exact
rationals. -/
def emitPercents (total : Nat) (processed : Nat) : List Nat → List Rat
  | [] => []
  | n :: rest =>
    (100 * ((processed + n : Nat) : Rat) / (total : Rat))
      :: emitPercents total (processed + n) rest

/-- The progress accounting of `main` (src/rganalysis.py lines 529-551):
`lengths` are the sets' lengths in grouping order, `order` the same lengths
in completion order. Setup computes `total_length`, `min_step` and the
display precision `math.log10(min_step * 100.0 / total_length)`, which raises
`ZeroDivisionError` when the total is zero (also `min` raises on an empty
list), and a `ValueError` from `log10(0.0)` when the minimum is zero;
otherwise the loop emits one percentage per completion. -/
def runProgress (lengths order : List Nat) : Except String (List Rat) :=
  match lengths with
  | [] => .error "ValueError"
  | l :: ls =>
    let total := (l :: ls).sum
    let minStep := ls.foldl Nat.min l
    if total = 0 then .error "ZeroDivisionError"
    else if minStep = 0 then .error "ValueError"
    else .ok (emitPercents total 0 order)

/-- Observational equality of two track sets: same derived key, same gain
mode, same sorted filename list, and the same track under every filename.
Two Python `RGTrackSet`s satisfying this are indistinguishable to every
method of the class (they hold equal dicts). -/
def setObsEquiv (s₁ s₂ : RGTrackSet) : Prop :=
  sKey s₁ = sKey s₂ ∧ s₁.gain_type = s₂.gain_type ∧
    s₁.filenames = s₂.filenames ∧
    ∀ fn, alookup s₁.RGTracks fn = alookup s₂.RGTracks fn

/-! ### Concrete fixtures used by witnesses and counterexamples -/

/-- A tagless track in directory `d`. -/
def exTrackA : Track := ⟨"d/a", "d", "c", []⟩

/-- A second tagless track in directory `d`. -/
def exTrackB : Track := ⟨"d/b", "d", "c", []⟩

/-- A track carrying both per-track replaygain tags. -/
def exValidA : Track :=
  ⟨"d/a", "d", "c", [(trackGainTag, "-1.00 dB"), (trackPeakTag, "0.98")]⟩

/-- A second track carrying both per-track replaygain tags. -/
def exValidB : Track :=
  ⟨"d/b", "d", "c", [(trackGainTag, "-2.00 dB"), (trackPeakTag, "0.50")]⟩

/-- A track named `d/a` whose gain tag is `1`. -/
def exDup1 : Track := ⟨"d/a", "d", "c", [(trackGainTag, "1")]⟩

/-- A track also named `d/a` but whose gain tag is `2`. -/
def exDup2 : Track := ⟨"d/a", "d", "c", [(trackGainTag, "2")]⟩

/-- A two-track set in mode `album` whose album-identity key fields are all
empty (the tracks carry no album tags at all). -/
def exSetEmptyAlbum : RGTrackSet :=
  ⟨[("d/a", exTrackA), ("d/b", exTrackB)], "album"⟩

/-- A single-track set with an invalid gain mode. -/
def exSetBogusSingle : RGTrackSet := ⟨[("d/a", exTrackA)], "bogus"⟩

/-- A two-track set with an invalid gain mode. -/
def exSetBogusMulti : RGTrackSet :=
  ⟨[("d/a", exTrackA), ("d/b", exTrackB)], "bogus"⟩

/-- A single-track set whose replaygain data is valid. -/
def exSetValidSingle : RGTrackSet := ⟨[("d/a", exValidA)], "auto"⟩

/-- A two-track set stored in `track` mode, without replaygain tags. -/
def exSetTrackMode : RGTrackSet :=
  ⟨[("d/a", exTrackA), ("d/b", exTrackB)], "track"⟩

/-- An analysis outcome with no per-file results. -/
def exAnalysisEmpty : Analysis := ⟨true, [], none⟩

/-- An analysis outcome covering `d/a` and `d/b` with an album pair. -/
def exAnalysisFull : Analysis :=
  ⟨true, [("d/a", "-1.00 dB", "0.98"), ("d/b", "-2.00 dB", "0.50")],
    some ("-1.50 dB", "0.99")⟩

/-- Two tracks sharing tag `x` with value `1`. -/
def exAgree : RGTrackSet :=
  ⟨[("d/a", ⟨"d/a", "d", "c", [("x", "1")]⟩),
    ("d/b", ⟨"d/b", "d", "c", [("x", "1")]⟩)], "auto"⟩

/-- Two tracks disagreeing on tag `x`. -/
def exDisagree : RGTrackSet :=
  ⟨[("d/a", ⟨"d/a", "d", "c", [("x", "1")]⟩),
    ("d/b", ⟨"d/b", "d", "c", [("x", "2")]⟩)], "auto"⟩

/-- Two tracks, one lacking tag `x`. -/
def exMissing : RGTrackSet :=
  ⟨[("d/a", ⟨"d/a", "d", "c", [("x", "1")]⟩),
    ("d/b", ⟨"d/b", "d", "c", []⟩)], "auto"⟩

/-! ### Association list lemmas -/

theorem any_fst_eq {κ α : Type} [DecidableEq κ] (d : List (κ × α)) (k : κ) :
    (d.any (fun p => p.1 = k)) = true ↔ k ∈ akeys d := by
  simp [akeys, List.any_eq_true, List.mem_map]

theorem alookup_eq_none {κ α : Type} [DecidableEq κ] (d : List (κ × α))
    (k : κ) : alookup d k = none ↔ k ∉ akeys d := by
  induction d with
  | nil => simp [alookup, akeys]
  | cons p d ih =>
    obtain ⟨a, b⟩ := p
    simp only [alookup, akeys, List.map_cons, List.mem_cons]
    by_cases h : a = k
    · subst h
      simp
    · simp only [h, if_false]
      rw [ih]
      unfold akeys
      constructor
      · intro hk hor
        rcases hor with hka | hm
        · exact h hka.symm
        · exact hk hm
      · intro hn hm
        exact hn (Or.inr hm)

theorem alookup_isSome_of_mem {κ α : Type} [DecidableEq κ]
    (d : List (κ × α)) (k : κ) (h : k ∈ akeys d) :
    ∃ v, alookup d k = some v := by
  cases hl : alookup d k with
  | none => exact absurd ((alookup_eq_none d k).mp hl) (not_not_intro h)
  | some v => exact ⟨v, rfl⟩

theorem alookup_map_overwrite {κ α : Type} [DecidableEq κ]
    (d : List (κ × α)) (k : κ) (v : α) (j : κ) :
    alookup (d.map (fun p => if p.1 = k then (k, v) else p)) j =
      if j = k then (alookup d k).map (fun _ => v) else alookup d j := by
  induction d with
  | nil => simp [alookup]
  | cons p d ih =>
    obtain ⟨a, b⟩ := p
    rw [List.map_cons]
    by_cases hak : a = k
    · subst hak
      rw [show (if (a, b).1 = a then (a, v) else (a, b)) = (a, v) from by simp]
      by_cases hja : j = a
      · subst hja
        simp [alookup, ih]
      · have haj : ¬a = j := fun h => hja h.symm
        simp [alookup, haj, hja, ih]
    · rw [show (if (a, b).1 = k then (k, v) else (a, b)) = (a, b) from by
        simp [hak]]
      by_cases haj : a = j
      · subst haj
        have hjk : ¬a = k := hak
        simp [alookup, hjk, ih]
      · simp [alookup, haj, hak, ih]

theorem alookup_append_single {κ α : Type} [DecidableEq κ]
    (d : List (κ × α)) (k : κ) (v : α) (j : κ) :
    alookup (d ++ [(k, v)]) j =
      match alookup d j with
      | some w => some w
      | none => if k = j then some v else none := by
  induction d with
  | nil => simp [alookup]
  | cons p d ih =>
    obtain ⟨a, b⟩ := p
    by_cases haj : a = j
    · simp [alookup, haj]
    · simp [alookup, haj, ih]

theorem alookup_aupdate {κ α : Type} [DecidableEq κ]
    (d : List (κ × α)) (k : κ) (v : α) (j : κ) :
    alookup (aupdate d k v) j = if j = k then some v else alookup d j := by
  unfold aupdate
  by_cases h : (d.any (fun p => p.1 = k)) = true
  · rw [if_pos h, alookup_map_overwrite]
    by_cases hjk : j = k
    · obtain ⟨w, hw⟩ := alookup_isSome_of_mem d k ((any_fst_eq d k).mp h)
      simp [hjk, hw]
    · simp [hjk]
  · rw [if_neg h, alookup_append_single]
    have hnone : alookup d k = none := by
      rw [alookup_eq_none]
      intro hm
      exact h ((any_fst_eq d k).mpr hm)
    by_cases hjk : j = k
    · subst hjk
      simp [hnone]
    · cases hl : alookup d j with
      | some w => simp [hjk, hl]
      | none =>
        have hkj : ¬k = j := fun hh => hjk hh.symm
        simp [hjk, hl, hkj]

theorem akeys_aupdate_of_mem {κ α : Type} [DecidableEq κ]
    (d : List (κ × α)) (k : κ) (v : α) (h : k ∈ akeys d) :
    akeys (aupdate d k v) = akeys d := by
  unfold aupdate
  rw [if_pos ((any_fst_eq d k).mpr h)]
  unfold akeys
  rw [List.map_map]
  apply List.map_congr_left
  intro p _
  by_cases hp : p.1 = k
  · simp [hp]
  · simp [hp]

theorem akeys_aupdate_of_not_mem {κ α : Type} [DecidableEq κ]
    (d : List (κ × α)) (k : κ) (v : α) (h : k ∉ akeys d) :
    akeys (aupdate d k v) = akeys d ++ [k] := by
  unfold aupdate
  rw [if_neg (fun ha => h ((any_fst_eq d k).mp ha))]
  simp [akeys]

theorem mem_akeys_aupdate {κ α : Type} [DecidableEq κ]
    (d : List (κ × α)) (k : κ) (v : α) (j : κ) :
    j ∈ akeys (aupdate d k v) ↔ j ∈ akeys d ∨ j = k := by
  by_cases h : k ∈ akeys d
  · rw [akeys_aupdate_of_mem d k v h]
    constructor
    · exact Or.inl
    · rintro (hj | rfl)
      · exact hj
      · exact h
  · rw [akeys_aupdate_of_not_mem d k v h]
    simp

theorem nodup_akeys_aupdate {κ α : Type} [DecidableEq κ]
    (d : List (κ × α)) (k : κ) (v : α) (h : (akeys d).Nodup) :
    (akeys (aupdate d k v)).Nodup := by
  by_cases hm : k ∈ akeys d
  · rw [akeys_aupdate_of_mem d k v hm]
    exact h
  · rw [akeys_aupdate_of_not_mem d k v hm]
    simp [List.nodup_append, h, hm]

theorem avalues_aupdate_subset {κ α : Type} [DecidableEq κ]
    (d : List (κ × α)) (k : κ) (v : α) (x : α)
    (h : x ∈ avalues (aupdate d k v)) : x ∈ avalues d ∨ x = v := by
  unfold aupdate at h
  by_cases ha : (d.any (fun p => p.1 = k)) = true
  · rw [if_pos ha] at h
    unfold avalues at h ⊢
    rw [List.map_map] at h
    obtain ⟨p, hp, he⟩ := List.mem_map.mp h
    by_cases hpk : p.1 = k
    · right
      simpa [hpk] using he.symm
    · left
      rw [List.mem_map]
      refine ⟨p, hp, ?_⟩
      simpa [hpk] using he
  · rw [if_neg ha] at h
    unfold avalues at h ⊢
    rw [List.map_append] at h
    rcases List.mem_append.mp h with h1 | h1
    · exact Or.inl h1
    · right
      simpa using h1

/-! ### Lemmas about the filename dict of a track set -/

theorem getLast?_cons_elim {α : Type} (a : α) (l : List α) :
    (a :: l).getLast? = match l.getLast? with
      | some x => some x
      | none => some a := by
  cases l with
  | nil => simp
  | cons b l =>
    rw [List.getLast?_cons_cons]
    cases h : (b :: l).getLast? with
    | some x => rfl
    | none =>
      rw [List.getLast?_eq_none_iff] at h
      exact absurd h (by simp)

theorem alookup_foldl_update (l : List Track) :
    ∀ (d : List (String × Track)) (fn : String),
    alookup (l.foldl (fun d t => aupdate d t.filename t) d) fn =
      match (l.filter (fun t => t.filename = fn)).getLast? with
      | some t => some t
      | none => alookup d fn := by
  induction l with
  | nil => intro d fn; simp
  | cons t l ih =>
    intro d fn
    rw [List.foldl_cons, ih]
    by_cases ht : t.filename = fn
    · rw [show (t :: l).filter (fun t => t.filename = fn) =
          t :: l.filter (fun t => t.filename = fn) from by
        simp [List.filter_cons, ht]]
      rw [getLast?_cons_elim]
      cases hl : (l.filter (fun t => t.filename = fn)).getLast? with
      | some u => simp
      | none => simp [alookup_aupdate, ht.symm]
    · rw [show (t :: l).filter (fun t => t.filename = fn) =
          l.filter (fun t => t.filename = fn) from by
        simp [List.filter_cons, ht]]
      cases hl : (l.filter (fun t => t.filename = fn)).getLast? with
      | some u => simp
      | none =>
        simp only [hl]
        rw [alookup_aupdate, if_neg (fun h : fn = t.filename => ht h.symm)]

theorem alookup_dictOfTracks (l : List Track) (fn : String) :
    alookup (dictOfTracks l) fn =
      (l.filter (fun t => t.filename = fn)).getLast? := by
  unfold dictOfTracks
  rw [alookup_foldl_update]
  cases hl : (l.filter (fun t => t.filename = fn)).getLast? with
  | some u => rfl
  | none => simp [alookup]

theorem mem_akeys_foldl_update (l : List Track) :
    ∀ (d : List (String × Track)) (fn : String),
    fn ∈ akeys (l.foldl (fun d t => aupdate d t.filename t) d) ↔
      fn ∈ akeys d ∨ fn ∈ l.map Track.filename := by
  induction l with
  | nil => intro d fn; simp
  | cons t l ih =>
    intro d fn
    rw [List.foldl_cons, ih, mem_akeys_aupdate]
    simp only [List.map_cons, List.mem_cons]
    constructor
    · rintro ((hd | rfl) | hl)
      · exact Or.inl hd
      · exact Or.inr (Or.inl rfl)
      · exact Or.inr (Or.inr hl)
    · rintro (hd | (rfl | hl))
      · exact Or.inl (Or.inl hd)
      · exact Or.inl (Or.inr rfl)
      · exact Or.inr hl

theorem mem_akeys_dictOfTracks (l : List Track) (fn : String) :
    fn ∈ akeys (dictOfTracks l) ↔ fn ∈ l.map Track.filename := by
  unfold dictOfTracks
  rw [mem_akeys_foldl_update]
  simp [akeys]

theorem nodup_akeys_foldl_update (l : List Track) :
    ∀ (d : List (String × Track)), (akeys d).Nodup →
    (akeys (l.foldl (fun d t => aupdate d t.filename t) d)).Nodup := by
  induction l with
  | nil => intro d h; simpa using h
  | cons t l ih =>
    intro d h
    rw [List.foldl_cons]
    exact ih _ (nodup_akeys_aupdate _ _ _ h)

theorem nodup_akeys_dictOfTracks (l : List Track) :
    (akeys (dictOfTracks l)).Nodup := by
  unfold dictOfTracks
  exact nodup_akeys_foldl_update l [] (by simp [akeys])

theorem avalues_foldl_update_subset (l : List Track) :
    ∀ (d : List (String × Track)) (x : Track),
    x ∈ avalues (l.foldl (fun d t => aupdate d t.filename t) d) →
      x ∈ avalues d ∨ x ∈ l := by
  induction l with
  | nil => intro d x h; exact Or.inl h
  | cons t l ih =>
    intro d x h
    rw [List.foldl_cons] at h
    rcases ih _ x h with h1 | h1
    · rcases avalues_aupdate_subset _ _ _ _ h1 with h2 | h2
      · exact Or.inl h2
      · exact Or.inr (by simp [h2])
    · exact Or.inr (List.mem_cons_of_mem _ h1)

theorem avalues_dictOfTracks_subset (l : List Track) (x : Track)
    (h : x ∈ avalues (dictOfTracks l)) : x ∈ l := by
  unfold dictOfTracks at h
  rcases avalues_foldl_update_subset l [] x h with h1 | h1
  · simp [avalues] at h1
  · exact h1

theorem length_dictOfTracks (l : List Track) :
    (dictOfTracks l).length = (l.map Track.filename).dedup.length := by
  have hkeys : (akeys (dictOfTracks l)).length = (dictOfTracks l).length := by
    simp [akeys]
  rw [← hkeys]
  have hperm : List.Perm (akeys (dictOfTracks l))
      ((l.map Track.filename).dedup) := by
    rw [List.perm_ext_iff_of_nodup (nodup_akeys_dictOfTracks l)
      (List.nodup_dedup _)]
    intro fn
    rw [mem_akeys_dictOfTracks, List.mem_dedup]
  exact hperm.length_eq

/-! ### Small helper lemmas -/

theorem truthy_iff (r : TagResult) : r.truthy = true ↔ ∃ v, r = .val v := by
  cases r <;> simp [TagResult.truthy]

theorem isNone_iff (r : TagResult) : r.isNone = true ↔ r = .absent := by
  cases r <;> simp [TagResult.isNone]

theorem take_one_beq_pair (l : List String) : (l.take 1 == ["", ""]) = false := by
  rw [beq_eq_false_iff_ne]
  intro he
  have hlen := congrArg List.length he
  rw [List.length_take] at hlen
  simp at hlen
  omega

theorem isMultitrackAlbum_iff (s : RGTrackSet) :
    isMultitrackAlbum s = true ↔ 1 < s.RGTracks.length := by
  unfold isMultitrackAlbum
  rw [take_one_beq_pair (sKey s)]
  constructor
  · intro hh
    by_contra hc
    push_neg at hc
    have hc1 : s.RGTracks.length ≤ 1 := by omega
    simp [hc1] at hh
  · intro hh
    have hc : ¬s.RGTracks.length ≤ 1 := by omega
    simp [hc]

theorem dedup_eq_single {α : Type} [DecidableEq α] (l : List α) (v : α)
    (hne : l ≠ []) (hall : ∀ x ∈ l, x = v) : l.dedup = [v] := by
  induction l with
  | nil => exact absurd rfl hne
  | cons a t ih =>
    have ha : a = v := hall a (by simp)
    subst ha
    by_cases htn : t = []
    · subst htn
      simp
    · have hdt := ih htn (fun x hx => hall x (by simp [hx]))
      obtain ⟨b, hb⟩ := List.exists_mem_of_ne_nil t htn
      have hbv : b = a := hall b (by simp [hb])
      rw [List.dedup_cons_of_mem (hbv ▸ hb), hdt]

/-! ### Claim C10 -/

/-- C10: constructing an `RGTrackSet` from a list containing duplicate
filenames silently keeps one track per filename, the later one in iteration
order winning; `num_tracks` equals the number of distinct filenames in the
input, which can be strictly less than the number of tracks passed in. -/
theorem claim10_duplicate_filenames_collapse (l : List Track) (gt : String)
    (s : RGTrackSet) (h : mkRGTrackSet l gt = .ok s) :
    s.num_tracks = ((l.map Track.filename).dedup).length ∧
    ∀ fn, alookup s.RGTracks fn =
      (l.filter (fun t => t.filename = fn)).getLast? := by
  have hs : s = ⟨dictOfTracks l, gt⟩ := by
    unfold mkRGTrackSet at h
    split_ifs at h
    exact (Except.ok.inj h).symm
  subst hs
  exact ⟨length_dictOfTracks l, fun fn => alookup_dictOfTracks l fn⟩

/-- Witness for C10 at a concrete two-track input sharing one filename:
construction succeeds, the later track wins, and the track count `1` is
strictly less than the `2` tracks passed in. -/
theorem claim10_witness :
    RGTrackSet.num_tracks ⟨[("d/a", exDup2)], "auto"⟩ =
      (([exDup1, exDup2].map Track.filename).dedup).length ∧
    alookup (RGTrackSet.RGTracks ⟨[("d/a", exDup2)], "auto"⟩) "d/a" =
      ([exDup1, exDup2].filter (fun t => t.filename = "d/a")).getLast? ∧
    (([exDup1, exDup2].map Track.filename).dedup).length = 1 ∧ 1 < 2 :=
  ⟨(claim10_duplicate_filenames_collapse [exDup1, exDup2] "auto" _
      (by decide)).1,
   (claim10_duplicate_filenames_collapse [exDup1, exDup2] "auto" _
      (by decide)).2 "d/a",
   by decide, by decide⟩

/-! ### Claim C1 -/

/-- C1: evaluation of the code at the failing input. A two-track set whose
album-identity key fields (album, albumartist, albumid) are all the empty
string nevertheless wants album gain under mode `album`: the emptiness check
of `is_multitrack_album` (`self.track_set_key[0:1] is ('','')`) can never be
true, so a loose multi-track collection is treated as a real album,
contradicting the claim and the method docstring. -/
theorem claim1_code_eval :
    trackSetKey exTrackA = ["d", "c", "", "", "", ""] ∧
    trackSetKey exTrackB = ["d", "c", "", "", "", ""] ∧
    wantAlbumGain exSetEmptyAlbum [] = .ok true := by decide

/-! ### Claim C5 -/

/-- C5: evaluation of the code at the failing input. The set stores mode
`track`; `do_gain` is called with `gain_type = "album"` and `force`; the call
succeeds yet writes no album tags, because the body of `do_gain` in
src/rganalysis/__init__.py never reads its `gain_type` argument (contrary to
its docstring and to the legacy implementation in src/rganalysis.py): the
supplied mode would have decided for album tags, as the last conjunct
shows. -/
theorem claim5_code_eval :
    (doGain exSetTrackMode true (some "album") [] exAnalysisFull).err
        = none ∧
    getTag (doGain exSetTrackMode true (some "album") [] exAnalysisFull).state
        albumGainTag = .absent ∧
    getTag (doGain exSetTrackMode true (some "album") [] exAnalysisFull).state
        albumPeakTag = .absent ∧
    doGain exSetTrackMode true (some "album") [] exAnalysisFull =
      doGain exSetTrackMode true none [] exAnalysisFull ∧
    wantAlbumGain ⟨exSetTrackMode.RGTracks, "album"⟩ [] = .ok true := by
  decide

/-! ### Claim C7 -/

/-- C7 counterexample: a single-track set with the invalid gain mode `bogus`
does not raise; `want_album_gain` returns false, refuting the claim that
every set with an invalid mode raises a TypeError regardless of its number
of tracks. -/
theorem claim7_counterexample :
    wantAlbumGain exSetBogusSingle [] = .ok false := by decide

/-- C7 as amended: with a gain mode outside album/track/auto,
`want_album_gain` raises a TypeError when the set has more than one track,
and returns false without raising when it has at most one track (the mode
check sits inside the multitrack branch). -/
theorem claim7_amended (s : RGTrackSet) (env : List String)
    (h1 : s.gain_type ≠ "album") (h2 : s.gain_type ≠ "track")
    (h3 : s.gain_type ≠ "auto") :
    (1 < s.RGTracks.length →
      wantAlbumGain s env = .error gainTypeErrorMsg) ∧
    (s.RGTracks.length ≤ 1 → wantAlbumGain s env = .ok false) := by
  constructor
  · intro hlen
    have hm : isMultitrackAlbum s = true := (isMultitrackAlbum_iff s).mpr hlen
    unfold wantAlbumGain
    rw [if_pos hm, if_neg h1, if_neg h2, if_neg h3]
  · intro hlen
    have hm : isMultitrackAlbum s = false := by
      cases hb : isMultitrackAlbum s
      · rfl
      · exact absurd ((isMultitrackAlbum_iff s).mp hb) (by omega)
    unfold wantAlbumGain
    rw [hm]
    simp

/-- Witness for C7 at concrete inputs: a two-track `bogus` set raises, a
single-track `bogus` set returns false. -/
theorem claim7_witness :
    wantAlbumGain exSetBogusMulti [] = .error gainTypeErrorMsg ∧
    wantAlbumGain exSetBogusSingle [] = .ok false :=
  ⟨(claim7_amended exSetBogusMulti [] (by decide) (by decide)
      (by decide)).1 (by decide),
   (claim7_amended exSetBogusSingle [] (by decide) (by decide)
      (by decide)).2 (by decide)⟩

/-! ### Claim C4 -/

/-- C4: on a set whose replaygain data is valid, `do_gain` with
`force = false` is a no-op: the set is returned unchanged, no tag writes are
performed and `save()` does not run, so a second call after a successful
analysis performs zero additional tag writes. -/
theorem claim4_skip_is_noop (s : RGTrackSet) (gt : Option String)
    (env : List String) (a : Analysis)
    (h : hasValidRgdata s env = .ok true) :
    doGain s false gt env a = ⟨s, none, 0, false⟩ := by
  unfold doGain
  rw [h]
  rfl

/-- Witness for C4 at a concrete valid single-track set. -/
theorem claim4_witness :
    hasValidRgdata exSetValidSingle [] = .ok true ∧
    doGain exSetValidSingle false none [] exAnalysisEmpty =
      ⟨exSetValidSingle, none, 0, false⟩ :=
  ⟨by decide,
   claim4_skip_is_noop exSetValidSingle none [] exAnalysisEmpty (by decide)⟩

/-! ### Claim C8 -/

/-- C8: the dispatch applies the handler to every input set independently
(one output per input, each depending only on that set's own analysis
outcome), and the handler always returns the track set in the state
`do_gain` left it, swallowing any raised exception, so the number of handled
sets equals the number of input sets even when some analyses fail. -/
theorem claim8_dispatch_isolation (force : Bool) (gt : Option String)
    (env : List String) (ext : RGTrackSet → Analysis)
    (sets : List RGTrackSet) :
    (dispatchRun force gt env ext sets).length = sets.length ∧
    (∀ i : Nat, (dispatchRun force gt env ext sets)[i]? =
      (sets[i]?).map (fun s => trackSetHandler force gt env (ext s) s)) ∧
    (∀ s a, trackSetHandler force gt env a s =
      (doGain s force gt env a).state) := by
  refine ⟨by simp [dispatchRun], ?_, fun s a => rfl⟩
  intro i
  simp [dispatchRun]

/-! ### Claim C2 -/

/-- C2: for a non-empty track set and any tag name, the aggregate read
returns the shared value when every member has the tag with one agreed
value; the disagreement sentinel when every member has the tag but two
members differ; and the absence sentinel when at least one member lacks the
tag. The three outcomes are distinct constructors of `TagResult`. -/
theorem claim2_three_valued_aggregation (s : RGTrackSet) (tag : String)
    (hne : s.RGTracks ≠ []) :
    (∀ v, (∀ t ∈ avalues s.RGTracks, alookup t.tags tag = some v) →
      getTag s tag = .val v) ∧
    ((∀ t ∈ avalues s.RGTracks, (alookup t.tags tag).isSome = true) →
      (∃ t1 ∈ avalues s.RGTracks, ∃ t2 ∈ avalues s.RGTracks,
        alookup t1.tags tag ≠ alookup t2.tags tag) →
      getTag s tag = .disagree) ∧
    ((∃ t ∈ avalues s.RGTracks, alookup t.tags tag = none) →
      getTag s tag = .absent) := by
  have hts : avalues s.RGTracks ≠ [] := by
    intro he
    apply hne
    cases hd : s.RGTracks with
    | nil => rfl
    | cons p d =>
      rw [hd] at he
      simp [avalues] at he
  refine ⟨?_, ?_, ?_⟩
  · intro v hall
    have hcond :
        ((avalues s.RGTracks).any
          (fun t => (alookup t.tags tag).isNone)) = false := by
      rw [List.any_eq_false]
      intro t ht
      simp [hall t ht]
    have hvals :
        ((avalues s.RGTracks).filterMap
          (fun t => alookup t.tags tag)).dedup = [v] := by
      apply dedup_eq_single
      · obtain ⟨t0, ht0⟩ := List.exists_mem_of_ne_nil _ hts
        intro hemp
        have hv : v ∈ (avalues s.RGTracks).filterMap
            (fun t => alookup t.tags tag) := by
          rw [List.mem_filterMap]
          exact ⟨t0, ht0, hall t0 ht0⟩
        rw [hemp] at hv
        simp at hv
      · intro x hx
        rw [List.mem_filterMap] at hx
        obtain ⟨t, ht, hxt⟩ := hx
        rw [hall t ht] at hxt
        exact (Option.some.inj hxt).symm
    simp only [getTag, hcond, Bool.false_eq_true, if_false, hvals]
  · intro hall hdiff
    have hcond :
        ((avalues s.RGTracks).any
          (fun t => (alookup t.tags tag).isNone)) = false := by
      rw [List.any_eq_false]
      intro t ht
      simp [Option.isNone_eq_false_iff, Option.isSome_iff_ne_none.mp
        (hall t ht)]
    obtain ⟨t1, ht1, t2, ht2, hne12⟩ := hdiff
    obtain ⟨x, hx⟩ := Option.isSome_iff_exists.mp (hall t1 ht1)
    obtain ⟨y, hy⟩ := Option.isSome_iff_exists.mp (hall t2 ht2)
    have hxy : x ≠ y := by
      intro he
      apply hne12
      rw [hx, hy, he]
    have hxm : x ∈ ((avalues s.RGTracks).filterMap
        (fun t => alookup t.tags tag)).dedup := by
      rw [List.mem_dedup, List.mem_filterMap]
      exact ⟨t1, ht1, hx⟩
    have hym : y ∈ ((avalues s.RGTracks).filterMap
        (fun t => alookup t.tags tag)).dedup := by
      rw [List.mem_dedup, List.mem_filterMap]
      exact ⟨t2, ht2, hy⟩
    cases hd : ((avalues s.RGTracks).filterMap
        (fun t => alookup t.tags tag)).dedup with
    | nil =>
      rw [hd] at hxm
      simp at hxm
    | cons w rest =>
      cases rest with
      | nil =>
        rw [hd] at hxm hym
        simp at hxm hym
        exact absurd (hxm.trans hym.symm) hxy
      | cons w2 r2 =>
        simp only [getTag, hcond, Bool.false_eq_true, if_false, hd]
  · intro hmiss
    obtain ⟨t, ht, htm⟩ := hmiss
    have hcond :
        ((avalues s.RGTracks).any
          (fun t => (alookup t.tags tag).isNone)) = true := by
      rw [List.any_eq_true]
      exact ⟨t, ht, by simp [htm]⟩
    simp only [getTag, hcond, if_true]

/-- Witness for C2 at three concrete two-track sets: agreement yields the
value, disagreement yields the disagreement sentinel, one missing tag yields
the absence sentinel. -/
theorem claim2_witness :
    getTag exAgree "x" = .val "1" ∧
    getTag exDisagree "x" = .disagree ∧
    getTag exMissing "x" = .absent :=
  ⟨(claim2_three_valued_aggregation exAgree "x" (by decide)).1 "1"
      (by decide),
   (claim2_three_valued_aggregation exDisagree "x" (by decide)).2.1
      (by decide) (by decide),
   (claim2_three_valued_aggregation exMissing "x" (by decide)).2.2
      (by decide)⟩

/-! ### Claim C3 -/

/-- C3: `has_valid_rgdata` returns true iff every member track has both
per-track replaygain tags, and the aggregate album gain and peak are both
present-and-consistent when album gain is wanted, respectively both absent
when it is not wanted. -/
theorem claim3_has_valid_rgdata (s : RGTrackSet) (env : List String) :
    hasValidRgdata s env = .ok true ↔
      ((∀ t ∈ avalues s.RGTracks,
          (alookup t.tags trackGainTag).isSome = true ∧
          (alookup t.tags trackPeakTag).isSome = true) ∧
       ((wantAlbumGain s env = .ok true ∧
           (∃ v, getTag s albumGainTag = .val v) ∧
           (∃ v, getTag s albumPeakTag = .val v)) ∨
        (wantAlbumGain s env = .ok false ∧
           getTag s albumGainTag = .absent ∧
           getTag s albumPeakTag = .absent))) := by
  unfold hasValidRgdata
  by_cases hall : ((avalues s.RGTracks).all trackHasValid) = true
  · have hallP : ∀ t ∈ avalues s.RGTracks,
        (alookup t.tags trackGainTag).isSome = true ∧
        (alookup t.tags trackPeakTag).isSome = true := by
      intro t ht
      have := List.all_eq_true.mp hall t ht
      unfold trackHasValid at this
      exact Bool.and_eq_true_iff.mp this
    rw [if_pos hall]
    cases hw : wantAlbumGain s env with
    | error e => simp
    | ok b =>
      cases b with
      | true =>
        cases hg : getTag s albumGainTag <;>
          cases hp : getTag s albumPeakTag <;>
            simp [TagResult.truthy, TagResult.isNone,
              iff_true_intro hallP]
      | false =>
        cases hg : getTag s albumGainTag <;>
          cases hp : getTag s albumPeakTag <;>
            simp [TagResult.truthy, TagResult.isNone,
              iff_true_intro hallP]
  · rw [if_neg hall]
    constructor
    · intro hcontra
      exact absurd hcontra (by simp)
    · rintro ⟨hP, _⟩
      have hc : ((avalues s.RGTracks).all trackHasValid) = true := by
        rw [List.all_eq_true]
        intro t ht
        unfold trackHasValid
        rw [Bool.and_eq_true_iff]
        exact hP t ht
      exact absurd hc hall

/-! ### Claim C9 -/

theorem foldl_min_pos (ls : List Nat) :
    ∀ l, 0 < l → (∀ n ∈ ls, 0 < n) → 0 < ls.foldl Nat.min l := by
  induction ls with
  | nil => intro l hl _; exact hl
  | cons x rest ih =>
    intro l hl hall
    rw [List.foldl_cons]
    exact ih _ (Nat.lt_min.mpr ⟨hl, hall x (by simp)⟩)
      (fun n hn => hall n (by simp [hn]))

theorem emitPercents_getLast (total p : Nat) (order : List Nat)
    (hne : order ≠ []) :
    (emitPercents total p order).getLast? =
      some (100 * ((p + order.sum : Nat) : Rat) / (total : Rat)) := by
  induction order generalizing p with
  | nil => exact absurd rfl hne
  | cons x rest ih =>
    cases rest with
    | nil => simp [emitPercents]
    | cons y r2 =>
      rw [show emitPercents total p (x :: y :: r2) =
          (100 * ((p + x : Nat) : Rat) / (total : Rat)) ::
          emitPercents total (p + x) (y :: r2) from rfl]
      rw [getLast?_cons_elim, ih (p + x) (by simp)]
      have hnat : p + x + (y :: r2).sum = p + (x :: y :: r2).sum := by
        simp only [List.sum_cons]
        omega
      rw [hnat]

theorem emitPercents_chain (total : Nat) (htotal : 0 < total) (p : Nat)
    (order : List Nat) : (emitPercents total p order).Chain' (· ≤ ·) := by
  induction order generalizing p with
  | nil => simp [emitPercents]
  | cons x rest ih =>
    cases rest with
    | nil => simp [emitPercents]
    | cons y r2 =>
      rw [show emitPercents total p (x :: y :: r2) =
          (100 * ((p + x : Nat) : Rat) / (total : Rat)) ::
          (100 * ((p + x + y : Nat) : Rat) / (total : Rat)) ::
          emitPercents total (p + x + y) r2 from rfl]
      rw [List.chain'_cons]
      constructor
      · have htpos : (0 : Rat) < (total : Rat) := by exact_mod_cast htotal
        apply (div_le_div_right htpos).mpr
        apply mul_le_mul_of_nonneg_left _ (by norm_num)
        exact_mod_cast Nat.le_add_right (p + x) y
      · exact ih (p + x)

/-- C9 counterexample: the claim quantifies over non-negative lengths, but at
the single zero-length set the progress setup of `main` divides by zero
(`min_step * 100.0 / total_length`) before any percentage is emitted, so no
value — in particular no final 100 — is ever produced. -/
theorem claim9_counterexample :
    runProgress [0] [0] = .error "ZeroDivisionError" := rfl

/-- C9 as amended: for a non-empty list of positive set lengths and any
completion order (a permutation of the list), the setup succeeds and the
emitted sequence of percentages is non-decreasing, ending exactly at 100. -/
theorem claim9_amended (lengths order : List Nat)
    (hperm : lengths.Perm order) (hne : lengths ≠ [])
    (hpos : ∀ n ∈ lengths, 0 < n) :
    ∃ ps, runProgress lengths order = .ok ps ∧
      ps.Chain' (· ≤ ·) ∧ ps.getLast? = some 100 := by
  cases lengths with
  | nil => exact absurd rfl hne
  | cons l ls =>
    have htot : 0 < (l :: ls).sum := by
      have : 0 < l := hpos l (by simp)
      simp only [List.sum_cons]
      omega
    have hmin : 0 < ls.foldl Nat.min l :=
      foldl_min_pos ls l (hpos l (by simp))
        (fun n hn => hpos n (by simp [hn]))
    have horder : order ≠ [] := by
      intro he
      rw [he] at hperm
      exact absurd (List.Perm.eq_nil hperm) hne
    refine ⟨emitPercents (l :: ls).sum 0 order, ?_, ?_, ?_⟩
    · simp only [runProgress]
      rw [if_neg (by omega : ¬(l :: ls).sum = 0),
        if_neg (by omega : ¬ls.foldl Nat.min l = 0)]
    · exact emitPercents_chain _ htot 0 order
    · rw [emitPercents_getLast _ 0 order horder]
      have hsum : order.sum = (l :: ls).sum := (List.Perm.sum_eq hperm).symm
      rw [Nat.zero_add, hsum]
      have htne : ((l :: ls).sum : Rat) ≠ 0 := by
        exact_mod_cast Nat.pos_iff_ne_zero.mp htot
      rw [mul_div_assoc, div_self htne, mul_one]

/-- Witness for C9 at lengths `[1, 2]` completed in the order `[2, 1]`. -/
theorem claim9_witness :
    ∃ ps, runProgress [1, 2] [2, 1] = .ok ps ∧
      ps.Chain' (· ≤ ·) ∧ ps.getLast? = some 100 :=
  claim9_amended [1, 2] [2, 1] (by decide) (by decide) (by decide)

/-! ### Lemmas about the grouping step of MakeTrackSets -/

theorem alookup_map_modify {κ α : Type} [DecidableEq κ]
    (gs : List (κ × α)) (k0 : κ) (f : α → α) (j : κ) :
    alookup (gs.map (fun g => if g.1 = k0 then (g.1, f g.2) else g)) j =
      if j = k0 then (alookup gs k0).map f else alookup gs j := by
  induction gs with
  | nil => simp [alookup]
  | cons p gs ih =>
    obtain ⟨a, b⟩ := p
    rw [List.map_cons]
    by_cases hak : a = k0
    · subst hak
      rw [show (if (a, b).1 = a then ((a, b).1, f (a, b).2) else (a, b)) =
          (a, f b) from by simp]
      by_cases hja : j = a
      · subst hja
        simp [alookup, ih]
      · have haj : ¬a = j := fun h => hja h.symm
        simp [alookup, haj, hja, ih]
    · rw [show (if (a, b).1 = k0 then ((a, b).1, f (a, b).2) else (a, b)) =
          (a, b) from by simp [hak]]
      by_cases haj : a = j
      · subst haj
        have hjk : ¬a = k0 := hak
        simp [alookup, hjk, ih]
      · simp [alookup, haj, hak, ih]

theorem akeys_map_modify {κ α : Type} [DecidableEq κ]
    (gs : List (κ × α)) (k0 : κ) (f : α → α) :
    akeys (gs.map (fun g => if g.1 = k0 then (g.1, f g.2) else g)) =
      akeys gs := by
  unfold akeys
  rw [List.map_map]
  apply List.map_congr_left
  intro p _
  by_cases hp : p.1 = k0
  · simp [hp]
  · simp [hp]

theorem alookup_addToGroups (gs : List (List String × List Track))
    (t : Track) (k : List String) :
    alookup (addToGroups gs t) k =
      if k = trackSetKey t then
        some (((alookup gs k).getD []) ++ [t])
      else alookup gs k := by
  unfold addToGroups
  by_cases hany : (gs.any (fun g => g.1 = trackSetKey t)) = true
  · rw [if_pos hany,
      alookup_map_modify gs (trackSetKey t) (fun m => m ++ [t]) k]
    by_cases hk : k = trackSetKey t
    · subst hk
      obtain ⟨m, hm⟩ := alookup_isSome_of_mem gs (trackSetKey t)
        ((any_fst_eq gs (trackSetKey t)).mp hany)
      simp [hm]
    · simp [hk]
  · rw [if_neg hany, alookup_append_single]
    have hnone : alookup gs (trackSetKey t) = none := by
      rw [alookup_eq_none]
      intro hm
      exact hany ((any_fst_eq gs (trackSetKey t)).mpr hm)
    by_cases hk : k = trackSetKey t
    · subst hk
      simp [hnone]
    · cases hl : alookup gs k with
      | some m => simp [hk, hl]
      | none =>
        have hkt : ¬trackSetKey t = k := fun hh => hk hh.symm
        simp [hk, hl, hkt]

theorem akeys_addToGroups (gs : List (List String × List Track)) (t : Track) :
    akeys (addToGroups gs t) = akeys gs ∨
      (akeys (addToGroups gs t) = akeys gs ++ [trackSetKey t] ∧
        trackSetKey t ∉ akeys gs) := by
  unfold addToGroups
  by_cases hany : (gs.any (fun g => g.1 = trackSetKey t)) = true
  · rw [if_pos hany]
    exact Or.inl (akeys_map_modify gs (trackSetKey t) (fun m => m ++ [t]))
  · rw [if_neg hany]
    refine Or.inr ⟨by simp [akeys], ?_⟩
    intro hm
    exact hany ((any_fst_eq gs (trackSetKey t)).mpr hm)

theorem mem_akeys_addToGroups (gs : List (List String × List Track))
    (t : Track) (k : List String) :
    k ∈ akeys (addToGroups gs t) ↔
      k ∈ akeys gs ∨ k = trackSetKey t := by
  rcases akeys_addToGroups gs t with h | ⟨h, hnm⟩
  · rw [h]
    constructor
    · exact Or.inl
    · rintro (hk | rfl)
      · exact hk
      · exact (any_fst_eq gs (trackSetKey t)).mp (by
          by_contra hc
          rw [Bool.not_eq_true, ← Bool.not_eq_true] at hc
          have : trackSetKey t ∉ akeys gs := fun hm =>
            hc ((any_fst_eq gs (trackSetKey t)).mpr hm)
          rw [show addToGroups gs t =
              gs ++ [(trackSetKey t, [t])] from by
            unfold addToGroups
            rw [if_neg (by
              intro ha
              exact this ((any_fst_eq gs (trackSetKey t)).mp ha))]] at h
          have hlen := congrArg List.length h
          simp [akeys] at hlen)
  · rw [h]
    simp

theorem nodup_akeys_addToGroups (gs : List (List String × List Track))
    (t : Track) (h : (akeys gs).Nodup) :
    (akeys (addToGroups gs t)).Nodup := by
  rcases akeys_addToGroups gs t with hh | ⟨hh, hnm⟩
  · rw [hh]
    exact h
  · rw [hh]
    simp [List.nodup_append, h, hnm]

theorem alookup_foldl_groups (l : List Track) :
    ∀ (gs : List (List String × List Track)) (k : List String),
    alookup (l.foldl addToGroups gs) k =
      match alookup gs k with
      | some m => some (m ++ l.filter (fun t => trackSetKey t = k))
      | none =>
        if l.filter (fun t => trackSetKey t = k) = [] then none
        else some (l.filter (fun t => trackSetKey t = k)) := by
  induction l with
  | nil =>
    intro gs k
    cases hl : alookup gs k with
    | some m => simp [hl]
    | none => simp [hl]
  | cons t l ih =>
    intro gs k
    rw [List.foldl_cons, ih (addToGroups gs t) k, alookup_addToGroups]
    by_cases hk : k = trackSetKey t
    · have hf : (t :: l).filter (fun u => trackSetKey u = k) =
          t :: l.filter (fun u => trackSetKey u = k) := by
        simp [List.filter_cons, hk.symm]
      rw [hf, if_pos hk]
      cases hl : alookup gs k with
      | some m => simp [hl]
      | none => simp [hl]
    · have hkt : ¬trackSetKey t = k := fun h => hk h.symm
      have hf : (t :: l).filter (fun u => trackSetKey u = k) =
          l.filter (fun u => trackSetKey u = k) := by
        simp [List.filter_cons, hkt]
      rw [hf, if_neg hk]

theorem mem_akeys_foldl_groups (l : List Track) :
    ∀ (gs : List (List String × List Track)) (k : List String),
    k ∈ akeys (l.foldl addToGroups gs) ↔
      k ∈ akeys gs ∨ k ∈ l.map trackSetKey := by
  induction l with
  | nil => intro gs k; simp
  | cons t l ih =>
    intro gs k
    rw [List.foldl_cons, ih (addToGroups gs t) k, mem_akeys_addToGroups]
    simp only [List.map_cons, List.mem_cons]
    constructor
    · rintro ((hg | rfl) | hl)
      · exact Or.inl hg
      · exact Or.inr (Or.inl rfl)
      · exact Or.inr (Or.inr hl)
    · rintro (hg | (rfl | hl))
      · exact Or.inl (Or.inl hg)
      · exact Or.inl (Or.inr rfl)
      · exact Or.inr hl

theorem nodup_akeys_foldl_groups (l : List Track) :
    ∀ (gs : List (List String × List Track)), (akeys gs).Nodup →
    (akeys (l.foldl addToGroups gs)).Nodup := by
  induction l with
  | nil => intro gs h; simpa using h
  | cons t l ih =>
    intro gs h
    rw [List.foldl_cons]
    exact ih _ (nodup_akeys_addToGroups gs t h)

theorem mem_akeys_groupsOf (l : List Track) (k : List String) :
    k ∈ akeys (groupsOf l) ↔ k ∈ l.map trackSetKey := by
  unfold groupsOf
  rw [mem_akeys_foldl_groups]
  simp [akeys]

theorem nodup_akeys_groupsOf (l : List Track) :
    (akeys (groupsOf l)).Nodup := by
  unfold groupsOf
  exact nodup_akeys_foldl_groups l [] (by simp [akeys])

theorem filter_key_ne_nil_of_mem (l : List Track) (k : List String)
    (h : k ∈ l.map trackSetKey) :
    l.filter (fun t => trackSetKey t = k) ≠ [] := by
  obtain ⟨t, ht, hk⟩ := List.mem_map.mp h
  intro he
  have : t ∈ l.filter (fun u => trackSetKey u = k) := by
    rw [List.mem_filter]
    exact ⟨ht, by simp [hk]⟩
  rw [he] at this
  simp at this

theorem alookup_groupsOf (l : List Track) (k : List String)
    (h : k ∈ akeys (groupsOf l)) :
    alookup (groupsOf l) k =
      some (l.filter (fun t => trackSetKey t = k)) := by
  have hm : k ∈ l.map trackSetKey := (mem_akeys_groupsOf l k).mp h
  unfold groupsOf
  rw [alookup_foldl_groups l [] k]
  have hnil : alookup ([] : List (List String × List Track)) k = none := rfl
  rw [hnil]
  simp only [if_neg (filter_key_ne_nil_of_mem l k hm)]

theorem mapM_ok {α β : Type} (ks : List α) (f : α → Except String β)
    (g : α → β) (h : ∀ k ∈ ks, f k = .ok (g k)) :
    ks.mapM f = .ok (ks.map g) := by
  induction ks with
  | nil => rfl
  | cons k ks ih =>
    rw [List.mapM_cons, h k (by simp),
      ih (fun k2 hk2 => h k2 (by simp [hk2]))]
    rfl

theorem dictOfTracks_ne_nil (m : List Track) (hne : m ≠ []) :
    dictOfTracks m ≠ [] := by
  intro he
  obtain ⟨t, ht⟩ := List.exists_mem_of_ne_nil m hne
  have : t.filename ∈ akeys (dictOfTracks m) := by
    rw [mem_akeys_dictOfTracks, List.mem_map]
    exact ⟨t, ht, rfl⟩
  rw [he] at this
  simp [akeys] at this

theorem mkRGTrackSet_of_uniform (m : List Track) (k : List String)
    (gt : String) (hne : m ≠ []) (hall : ∀ t ∈ m, trackSetKey t = k) :
    mkRGTrackSet m gt = .ok ⟨dictOfTracks m, gt⟩ := by
  unfold mkRGTrackSet
  have hd : dictOfTracks m ≠ [] := dictOfTracks_ne_nil m hne
  rw [if_neg (by
    intro hlen
    exact hd (List.length_eq_zero.mp (by omega)))]
  rw [if_neg (by
    intro hdedup
    apply hdedup
    rw [dedup_eq_single _ k]
    · rfl
    · intro he
      rw [List.map_eq_nil_iff] at he
      exact hd (by
        unfold avalues at he
        rw [List.map_eq_nil_iff] at he
        exact he)
    · intro x hx
      rw [List.mem_map] at hx
      obtain ⟨t, ht, hxt⟩ := hx
      rw [← hxt]
      exact hall t (avalues_dictOfTracks_subset m t ht))]

theorem MakeTrackSets_eq (l : List Track) :
    MakeTrackSets l = .ok ((sortedKeysOf l).map (fun k =>
      (⟨dictOfTracks (l.filter (fun t => trackSetKey t = k)), "auto"⟩ :
        RGTrackSet))) := by
  unfold MakeTrackSets
  rw [show List.insertionSort (· ≤ ·) (akeys (groupsOf l)) =
      sortedKeysOf l from rfl]
  apply mapM_ok
  intro k hk
  have hmem : k ∈ akeys (groupsOf l) :=
    (List.perm_insertionSort (· ≤ ·) (akeys (groupsOf l))).mem_iff.mp hk
  rw [alookup_groupsOf l k hmem]
  simp only [Option.getD_some]
  have hmk : k ∈ l.map trackSetKey := (mem_akeys_groupsOf l k).mp hmem
  apply mkRGTrackSet_of_uniform _ k
  · exact filter_key_ne_nil_of_mem l k hmk
  · intro t ht
    rw [List.mem_filter] at ht
    exact of_decide_eq_true ht.2

theorem mem_sortedKeysOf (l : List Track) (k : List String) :
    k ∈ sortedKeysOf l ↔ k ∈ l.map trackSetKey := by
  unfold sortedKeysOf
  rw [(List.perm_insertionSort (· ≤ ·) (akeys (groupsOf l))).mem_iff]
  exact mem_akeys_groupsOf l k

theorem sorted_lt_sortedKeysOf (l : List Track) :
    List.Sorted (· < ·) (sortedKeysOf l) := by
  have hs : List.Sorted (· ≤ ·) (sortedKeysOf l) :=
    List.sorted_insertionSort (· ≤ ·) (akeys (groupsOf l))
  have hn : (sortedKeysOf l).Nodup :=
    ((List.perm_insertionSort (· ≤ ·)
      (akeys (groupsOf l))).nodup_iff).mpr (nodup_akeys_groupsOf l)
  exact List.Pairwise.imp (fun h => lt_of_le_of_ne h.1 h.2)
    (List.Pairwise.and hs hn)

theorem sortedKeysOf_perm_eq (l₁ l₂ : List Track) (hperm : l₁.Perm l₂) :
    sortedKeysOf l₁ = sortedKeysOf l₂ := by
  have hk : List.Perm (akeys (groupsOf l₁)) (akeys (groupsOf l₂)) := by
    rw [List.perm_ext_iff_of_nodup (nodup_akeys_groupsOf l₁)
      (nodup_akeys_groupsOf l₂)]
    intro k
    rw [mem_akeys_groupsOf, mem_akeys_groupsOf]
    exact (hperm.map trackSetKey).mem_iff
  exact List.eq_of_perm_of_sorted
    ((List.perm_insertionSort (· ≤ ·) (akeys (groupsOf l₁))).trans
      (hk.trans (List.perm_insertionSort (· ≤ ·)
        (akeys (groupsOf l₂))).symm))
    (List.sorted_insertionSort (· ≤ ·) (akeys (groupsOf l₁)))
    (List.sorted_insertionSort (· ≤ ·) (akeys (groupsOf l₂)))

theorem getLast_eq_of_perm_of_allEq {α : Type} (l₁ l₂ : List α)
    (hperm : l₁.Perm l₂) (hall : ∀ a ∈ l₁, ∀ b ∈ l₁, a = b) :
    l₁.getLast? = l₂.getLast? := by
  by_cases h1 : l₁ = []
  · subst h1
    rw [List.Perm.eq_nil hperm.symm]
  · have h2 : l₂ ≠ [] := by
      intro he
      rw [he] at hperm
      exact h1 (List.Perm.eq_nil hperm)
    rw [List.getLast?_eq_getLast_of_ne_nil h1,
      List.getLast?_eq_getLast_of_ne_nil h2]
    congr 1
    exact hall _ (List.getLast_mem h1) _
      (hperm.mem_iff.mpr (List.getLast_mem h2))

theorem dict_lookup_perm (m₁ m₂ : List Track) (hperm : m₁.Perm m₂)
    (huniq : ∀ t₁ ∈ m₁, ∀ t₂ ∈ m₁, t₁.filename = t₂.filename → t₁ = t₂)
    (fn : String) :
    alookup (dictOfTracks m₁) fn = alookup (dictOfTracks m₂) fn := by
  rw [alookup_dictOfTracks, alookup_dictOfTracks]
  apply getLast_eq_of_perm_of_allEq
  · exact hperm.filter _
  · intro a ha b hb
    rw [List.mem_filter] at ha hb
    exact huniq a ha.1 b hb.1
      ((of_decide_eq_true ha.2).trans (of_decide_eq_true hb.2).symm)

theorem akeys_dict_perm (m₁ m₂ : List Track) (hperm : m₁.Perm m₂) :
    List.Perm (akeys (dictOfTracks m₁)) (akeys (dictOfTracks m₂)) := by
  rw [List.perm_ext_iff_of_nodup (nodup_akeys_dictOfTracks m₁)
    (nodup_akeys_dictOfTracks m₂)]
  intro fn
  rw [mem_akeys_dictOfTracks, mem_akeys_dictOfTracks]
  exact (hperm.map Track.filename).mem_iff

theorem filenames_dict_perm (m₁ m₂ : List Track) (hperm : m₁.Perm m₂)
    (gt : String) :
    RGTrackSet.filenames ⟨dictOfTracks m₁, gt⟩ =
      RGTrackSet.filenames ⟨dictOfTracks m₂, gt⟩ := by
  unfold RGTrackSet.filenames
  exact List.eq_of_perm_of_sorted
    ((List.perm_insertionSort (· ≤ ·) _).trans
      ((akeys_dict_perm m₁ m₂ hperm).trans
        (List.perm_insertionSort (· ≤ ·) _).symm))
    (List.sorted_insertionSort (· ≤ ·) _)
    (List.sorted_insertionSort (· ≤ ·) _)

theorem sKey_mk_group (m : List Track) (k : List String) (gt : String)
    (hne : m ≠ []) (hall : ∀ t ∈ m, trackSetKey t = k) :
    sKey ⟨dictOfTracks m, gt⟩ = k := by
  unfold sKey
  cases hd : dictOfTracks m with
  | nil => exact absurd hd (dictOfTracks_ne_nil m hne)
  | cons p d =>
    have hv : p.2 ∈ avalues (dictOfTracks m) := by
      rw [hd]
      simp [avalues]
    have hm : p.2 ∈ m := avalues_dictOfTracks_subset m p.2 hv
    obtain ⟨a, b⟩ := p
    exact hall b hm

theorem forall₂_map_same {α β : Type} (R : β → β → Prop) (f g : α → β)
    (ks : List α) (h : ∀ k ∈ ks, R (f k) (g k)) :
    List.Forall₂ R (ks.map f) (ks.map g) := by
  induction ks with
  | nil => simp
  | cons k ks ih =>
    rw [List.map_cons, List.map_cons]
    exact List.Forall₂.cons (h k (by simp))
      (ih (fun k2 hk2 => h k2 (by simp [hk2])))

theorem map_sKey_groups (l : List Track) :
    ((sortedKeysOf l).map (fun k =>
      (⟨dictOfTracks (l.filter (fun t => trackSetKey t = k)), "auto"⟩ :
        RGTrackSet))).map sKey = sortedKeysOf l := by
  rw [List.map_map]
  have hcong : (sortedKeysOf l).map (fun k =>
      sKey ⟨dictOfTracks (l.filter (fun t => trackSetKey t = k)), "auto"⟩) =
      (sortedKeysOf l).map id := by
    apply List.map_congr_left
    intro k hk
    have hmk : k ∈ l.map trackSetKey := (mem_sortedKeysOf l k).mp hk
    exact sKey_mk_group _ k "auto" (filter_key_ne_nil_of_mem l k hmk)
      (fun t ht => of_decide_eq_true (List.mem_filter.mp ht).2)
  rw [show (sKey ∘ fun k =>
      (⟨dictOfTracks (l.filter (fun t => trackSetKey t = k)), "auto"⟩ :
        RGTrackSet)) = fun k =>
      sKey ⟨dictOfTracks (l.filter (fun t => trackSetKey t = k)), "auto"⟩
    from rfl, hcong, List.map_id]

/-! ### Claim C6 -/

/-- C6 counterexample: two permutations of the same two-track input (both
tracks named `d/a`, same key, different gain tags) yield track sets with
different memberships: the later duplicate wins, so each order keeps a
different track, observable through the aggregate tag read. This refutes the
claim's unrestricted permutation invariance. -/
theorem claim6_counterexample :
    MakeTrackSets [exDup1, exDup2] = .ok [⟨[("d/a", exDup2)], "auto"⟩] ∧
    MakeTrackSets [exDup2, exDup1] = .ok [⟨[("d/a", exDup1)], "auto"⟩] ∧
    getTag ⟨[("d/a", exDup2)], "auto"⟩ trackGainTag = .val "2" ∧
    getTag ⟨[("d/a", exDup1)], "auto"⟩ trackGainTag = .val "1" ∧
    alookup (RGTrackSet.RGTracks ⟨[("d/a", exDup2)], "auto"⟩) "d/a" ≠
      alookup (RGTrackSet.RGTracks ⟨[("d/a", exDup1)], "auto"⟩) "d/a" := by
  decide

/-- C6 as amended: for inputs in which no two distinct tracks share a
filename, `MakeTrackSets` succeeds and returns one track set per distinct
track-set key, in strictly ascending key order and with exactly the input's
keys; and for any permutation of the input it yields the same key sequence
and pairwise observationally equal track sets (same key, same mode, same
sorted filenames, same track under every filename). Without the
distinct-filename restriction the last-wins filename collapse (claim C10)
makes the retained duplicate depend on input order. -/
theorem claim6_amended (l₁ l₂ : List Track) (hperm : l₁.Perm l₂)
    (huniq : ∀ t₁ ∈ l₁, ∀ t₂ ∈ l₁, t₁.filename = t₂.filename → t₁ = t₂) :
    ∃ o₁ o₂, MakeTrackSets l₁ = .ok o₁ ∧ MakeTrackSets l₂ = .ok o₂ ∧
      List.Sorted (· < ·) (o₁.map sKey) ∧
      (∀ k, k ∈ o₁.map sKey ↔ k ∈ l₁.map trackSetKey) ∧
      o₁.map sKey = o₂.map sKey ∧
      List.Forall₂ setObsEquiv o₁ o₂ := by
  have hks : sortedKeysOf l₁ = sortedKeysOf l₂ := sortedKeysOf_perm_eq l₁ l₂ hperm
  refine ⟨_, _, MakeTrackSets_eq l₁, MakeTrackSets_eq l₂, ?_, ?_, ?_, ?_⟩
  · rw [map_sKey_groups l₁]
    exact sorted_lt_sortedKeysOf l₁
  · intro k
    rw [map_sKey_groups l₁]
    exact mem_sortedKeysOf l₁ k
  · rw [map_sKey_groups l₁, map_sKey_groups l₂]
    exact hks
  · rw [← hks]
    apply forall₂_map_same
    intro k hk
    have hmk₁ : k ∈ l₁.map trackSetKey := (mem_sortedKeysOf l₁ k).mp hk
    have hmk₂ : k ∈ l₂.map trackSetKey :=
      ((hperm.map trackSetKey).mem_iff).mp hmk₁
    have hfperm : (l₁.filter (fun t => trackSetKey t = k)).Perm
        (l₂.filter (fun t => trackSetKey t = k)) := hperm.filter _
    refine ⟨?_, rfl, ?_, ?_⟩
    · rw [sKey_mk_group _ k "auto" (filter_key_ne_nil_of_mem l₁ k hmk₁)
        (fun t ht => of_decide_eq_true (List.mem_filter.mp ht).2),
        sKey_mk_group _ k "auto" (filter_key_ne_nil_of_mem l₂ k hmk₂)
        (fun t ht => of_decide_eq_true (List.mem_filter.mp ht).2)]
    · exact filenames_dict_perm _ _ hfperm "auto"
    · intro fn
      apply dict_lookup_perm _ _ hfperm ?_ fn
      intro t1 ht1 t2 ht2 hfn
      exact huniq t1 (List.mem_filter.mp ht1).1 t2
        (List.mem_filter.mp ht2).1 hfn

/-- Witness for C6 at a concrete two-track input with distinct filenames and
its transposition. -/
theorem claim6_witness :
    ∃ o₁ o₂, MakeTrackSets [exValidA, exValidB] = .ok o₁ ∧
      MakeTrackSets [exValidB, exValidA] = .ok o₂ ∧
      List.Sorted (· < ·) (o₁.map sKey) ∧
      (∀ k, k ∈ o₁.map sKey ↔ k ∈ [exValidA, exValidB].map trackSetKey) ∧
      o₁.map sKey = o₂.map sKey ∧
      List.Forall₂ setObsEquiv o₁ o₂ :=
  claim6_amended [exValidA, exValidB] [exValidB, exValidA] (by decide)
    (by decide)
